import Mathlib

/-!
Shallow embedding of the two user programs of the quartos repository,
`src/user/programs/fibonacci.c` and `src/user/programs/hello.c`.

The UART at address 0x5000 is modelled by the list of bytes written to it,
in write order; a byte is a `Nat` (its ASCII code).  Each C function that
writes to the UART is embedded as a Lean function returning the list of
bytes it writes.  C `unsigned int` arithmetic is `Nat` arithmetic with an
explicit `% 2 ^ 32` where the C code can overflow.
-/

namespace Quartos

namespace Fibonacci

/-- Embedding of `put` from fibonacci.c (lines 6-9):
`for (; *str != '\0'; str++) *uart = *str;`.
The argument is the byte sequence in memory starting at `str`; the result is
the sequence of bytes written to the UART: every byte up to, and excluding,
the first null byte. -/
def put : List Nat → List Nat
  | [] => []
  | c :: rest => if c = 0 then [] else c :: put rest

/-- Embedding of the do-while digit-accumulation loop of `putNum`
(fibonacci.c lines 16-19):
`do { buff[i++] = (num % 10) + '0'; num /= 10; } while (num > 0);`.
The result is the contents of `buff[0], buff[1], ...` in write order
(index 0 first); its length is the final value of `i`, the number of loop
iterations.  `48` is the ASCII code of the character zero. -/
def pushDigits (num : Nat) : List Nat :=
  (num % 10 + 48) :: (if h : 0 < num / 10 then pushDigits (num / 10) else [])
termination_by num
decreasing_by exact Nat.div_lt_self (by omega) (by omega)

/-- Embedding of `putNum` from fibonacci.c (lines 11-23): the digit buffer is
filled least-significant digit first by `pushDigits`, then the replay loop
`while (i > 0) *uart = buff[--i];` writes `buff[i-1], ..., buff[0]`,
i.e. the buffer reversed. -/
def putNum (num : Nat) : List Nat := (pushDigits num).reverse

/-- Embedding of `fib` from fibonacci.c (lines 25-30):
`if (n <= 1) return n; else return fib(n - 1) + fib(n - 2);`.
The addition is C `unsigned int` addition, hence taken modulo `2 ^ 32`;
the subtractions happen only when `2 ≤ n`, so they do not wrap. -/
def fib (n : Nat) : Nat :=
  if n ≤ 1 then n else (fib (n - 1) + fib (n - 2)) % 2 ^ 32
termination_by n
decreasing_by all_goals omega

/-- Byte sequence of the C string literal `"Fib(40) = "` including its null
terminator, as it sits in memory. -/
def fibMsg : List Nat := [70, 105, 98, 40, 52, 48, 41, 32, 61, 32, 0]

/-- Byte sequence of the C string literal `"\r\n"` including its null
terminator. -/
def crlfMsg : List Nat := [13, 10, 0]

/-- Embedding of `main` from fibonacci.c (lines 33-37): the bytes written to
the UART by `put("Fib(40) = "); putNum(fib(40)); put("\r\n");`
in program order. -/
def main : List Nat := put fibMsg ++ putNum (fib 40) ++ put crlfMsg

end Fibonacci

namespace Hello

/-- Embedding of `put` from hello.c (lines 6-9); the code is identical to
`put` in fibonacci.c. -/
def put : List Nat → List Nat
  | [] => []
  | c :: rest => if c = 0 then [] else c :: put rest

/-- Byte sequence of the C string literal `"Hello there\r\n"` including its
null terminator. -/
def helloMsg : List Nat := [72, 101, 108, 108, 111, 32, 116, 104, 101, 114, 101, 13, 10, 0]

/-- Embedding of `main` from hello.c (lines 11-13): the bytes written to the
UART by `put("Hello there\r\n");`. -/
def main : List Nat := put helloMsg

end Hello

/-- Fuel-indexed version of `Fibonacci.pushDigits`, used only to evaluate it
on concrete inputs (the well-founded recursion of `pushDigits` does not
reduce inside the kernel).  `pdFuel_eq` proves it agrees with `pushDigits`
whenever the fuel exceeds the input. -/
def pdFuel : Nat → Nat → List Nat
  | 0, _ => []
  | fuel + 1, num =>
    (num % 10 + 48) :: (if 0 < num / 10 then pdFuel fuel (num / 10) else [])

/-- Linear-time evaluator for `Fibonacci.fib`: `fibPair n` computes the pair
`(fib n, fib (n + 1))` by structural recursion, so that concrete values of
`fib` can be computed by the kernel. -/
def fibPair : Nat → Nat × Nat
  | 0 => (0, 1)
  | n + 1 => ((fibPair n).2, ((fibPair n).1 + (fibPair n).2) % 2 ^ 32)

/-- Specification-side definition, modelled from the spec's words: the
canonical decimal representation of `v` as a byte sequence, most-significant
digit first with no leading zeros, the single byte `'0'` (48) for zero.
It is compared with the code-side `Fibonacci.putNum`. -/
def canonicalDecimal (v : Nat) : List Nat :=
  if v = 0 then [48] else ((Nat.digits 10 v).map (fun d => d + 48)).reverse

/-- Performs `k` successive calls of a UART-writing routine `p` on the same
message `m`, starting from UART trace `t`.  The machine state is just the
list of bytes already written to the UART: the UART has no other state the
C code could read or write, so a call of `p m` from trace `t` leaves the
trace `t ++ p m`. -/
def putCalls (p : List Nat → List Nat) (m : List Nat) : Nat → List Nat → List Nat
  | 0, t => t
  | k + 1, t => putCalls p m k (t ++ p m)

/-- Concatenation of `k` copies of a byte sequence. -/
def repeatOut (out : List Nat) : Nat → List Nat
  | 0 => []
  | k + 1 => out ++ repeatOut out k

/-- Control states of the `_start` stubs.  `Reset` is the processor at the
entry symbol; `Running` is `main` executing; `Parked` is the
`_start_park: j _start_park` self-loop of the fibonacci variant; `Faulted`
is the state after the hello variant's `j 0` jumped to the invalid address
zero. -/
inductive ProgState
  | Reset
  | Running
  | Parked
  | Faulted
deriving DecidableEq

/-- One step of the fibonacci program (fibonacci.c lines 40-48):
`_start: call main` then `_start_park: j _start_park`.  The step from
`Running` runs `main` to completion, appending its UART writes to the
trace. -/
def fibMachineStep : ProgState × List Nat → ProgState × List Nat
  | (ProgState.Reset, t) => (ProgState.Running, t)
  | (ProgState.Running, t) => (ProgState.Parked, t ++ Fibonacci.main)
  | (ProgState.Parked, t) => (ProgState.Parked, t)
  | (ProgState.Faulted, t) => (ProgState.Faulted, t)

/-- One step of the hello program (hello.c lines 17-24):
`_start: call main` then `j 0`, which faults. -/
def helloMachineStep : ProgState × List Nat → ProgState × List Nat
  | (ProgState.Reset, t) => (ProgState.Running, t)
  | (ProgState.Running, t) => (ProgState.Faulted, t ++ Hello.main)
  | (ProgState.Parked, t) => (ProgState.Parked, t)
  | (ProgState.Faulted, t) => (ProgState.Faulted, t)

/-- Big-step evaluation relation for the recursive calls of `fib`, mirroring
the call structure of fibonacci.c lines 25-30: a call on `n ≤ 1` returns
`n` immediately, a call on `n ≥ 2` spawns calls on `n - 1` and `n - 2` and
returns their unsigned (modulo `2 ^ 32`) sum. -/
inductive FibEval : Nat → Nat → Prop
  | base (n : Nat) : n ≤ 1 → FibEval n n
  | step (n a b : Nat) : 2 ≤ n → FibEval (n - 1) a → FibEval (n - 2) b →
      FibEval n ((a + b) % 2 ^ 32)

/-- Expected UART output of the fibonacci program: the bytes of
`"Fib(40) = 102334155\r\n"`. -/
def fibExpectedOut : List Nat :=
  [70, 105, 98, 40, 52, 48, 41, 32, 61, 32, 49, 48, 50, 51, 51, 52, 49, 53, 53, 13, 10]

/-- Expected UART output of the hello program: the 13 bytes of
`"Hello there\r\n"`. -/
def helloExpectedOut : List Nat := [72, 101, 108, 108, 111, 32, 116, 104, 101, 114, 101, 13, 10]

/-! Helper lemmas. -/

theorem pdFuel_eq : ∀ fuel num, num < fuel → pdFuel fuel num = Fibonacci.pushDigits num := by
  intro fuel
  induction fuel with
  | zero => intro num h; omega
  | succ f ih =>
    intro num h
    rw [Fibonacci.pushDigits, pdFuel]
    by_cases hd : 0 < num / 10
    · have hlt : num / 10 < f := by
        have h1 : num / 10 < num := Nat.div_lt_self (by omega) (by omega)
        omega
      simp [hd, ih (num / 10) hlt]
    · simp [hd]

theorem putNum_eval (num : Nat) : Fibonacci.putNum num = (pdFuel (num + 1) num).reverse := by
  rw [Fibonacci.putNum, pdFuel_eq (num + 1) num (by omega)]

theorem fib_of_le {n : Nat} (h : n ≤ 1) : Fibonacci.fib n = n := by
  rw [Fibonacci.fib]
  simp [h]

theorem fib_of_ge {n : Nat} (h : 2 ≤ n) :
    Fibonacci.fib n = (Fibonacci.fib (n - 1) + Fibonacci.fib (n - 2)) % 2 ^ 32 := by
  rw [Fibonacci.fib]
  simp [show ¬ n ≤ 1 by omega]

theorem fib_zero : Fibonacci.fib 0 = 0 := fib_of_le (by omega)

theorem fib_one : Fibonacci.fib 1 = 1 := fib_of_le (by omega)

theorem fib_add_two (n : Nat) :
    Fibonacci.fib (n + 2) = (Fibonacci.fib (n + 1) + Fibonacci.fib n) % 2 ^ 32 := by
  have h := fib_of_ge (n := n + 2) (by omega)
  simpa using h

theorem fibPair_eq : ∀ n, fibPair n = (Fibonacci.fib n, Fibonacci.fib (n + 1)) := by
  intro n
  induction n with
  | zero => simp [fibPair, fib_zero, fib_one]
  | succ m ih =>
    rw [fibPair, ih]
    have h2 : Fibonacci.fib (m + 1 + 1) = (Fibonacci.fib (m + 1) + Fibonacci.fib m) % 2 ^ 32 :=
      fib_add_two m
    rw [Prod.mk.injEq]
    exact ⟨rfl, by rw [h2]; omega⟩

theorem fib_40 : Fibonacci.fib 40 = 102334155 := by
  have h : Fibonacci.fib 40 = (fibPair 40).1 := by rw [fibPair_eq]
  rw [h]
  rfl

theorem pushDigits_zero : Fibonacci.pushDigits 0 = [48] := by
  rw [Fibonacci.pushDigits]
  simp

theorem pushDigits_pos : ∀ num, 0 < num →
    Fibonacci.pushDigits num = (Nat.digits 10 num).map (fun d => d + 48) := by
  intro num
  induction num using Nat.strong_induction_on with
  | _ num ih =>
    intro hpos
    rw [Fibonacci.pushDigits, Nat.digits_def' (by omega : (1:Nat) < 10) hpos, List.map_cons]
    by_cases hd : 0 < num / 10
    · rw [ih (num / 10) (Nat.div_lt_self hpos (by omega)) hd]
      simp [hd]
    · have h0 : num / 10 = 0 := by omega
      simp [hd, h0]

theorem pushDigits_length_le : ∀ k num, num < 10 ^ (k + 1) →
    (Fibonacci.pushDigits num).length ≤ k + 1 := by
  intro k
  induction k with
  | zero =>
    intro num h
    rw [Fibonacci.pushDigits]
    have h0 : num / 10 = 0 := by omega
    simp [h0]
  | succ j ih =>
    intro num h
    rw [Fibonacci.pushDigits]
    by_cases hd : 0 < num / 10
    · have hdiv : num / 10 < 10 ^ (j + 1) := by
        rw [Nat.div_lt_iff_lt_mul (by omega : (0:Nat) < 10)]
        calc num < 10 ^ (j + 1 + 1) := h
        _ = 10 ^ (j + 1) * 10 := by ring
      simp only [hd, dif_pos, List.length_cons]
      exact Nat.add_le_add_right (ih (num / 10) hdiv) 1
    · simp [hd]

theorem putCalls_eq (p : List Nat → List Nat) (m : List Nat) :
    ∀ k t, putCalls p m k t = t ++ repeatOut (p m) k := by
  intro k
  induction k with
  | zero => intro t; simp [putCalls, repeatOut]
  | succ j ih =>
    intro t
    rw [putCalls, repeatOut, ih, List.append_assoc]

theorem fib_put_append_null : ∀ m : List Nat, ¬ 0 ∈ m → Fibonacci.put (m ++ [0]) = m := by
  intro m
  induction m with
  | nil => intro _; simp [Fibonacci.put]
  | cons c rest ih =>
    intro h
    have hc : c ≠ 0 := by simp at h; omega
    have hr : ¬ 0 ∈ rest := by simp at h; exact h.2
    rw [List.cons_append, Fibonacci.put]
    simp [hc, ih hr]

theorem hello_put_eq : ∀ s, Hello.put s = Fibonacci.put s := by
  intro s
  induction s with
  | nil => rfl
  | cons c rest ih => rw [Hello.put, Fibonacci.put, ih]

theorem putNum_eq_canonical (v : Nat) : Fibonacci.putNum v = canonicalDecimal v := by
  by_cases hv : v = 0
  · rw [hv, Fibonacci.putNum, pushDigits_zero, canonicalDecimal]
    simp
  · rw [Fibonacci.putNum, pushDigits_pos v (by omega), canonicalDecimal]
    simp [hv]

theorem pushDigits_getLast?_ne : ∀ num, 0 < num →
    ¬ (Fibonacci.pushDigits num).getLast? = some 48 := by
  intro num
  induction num using Nat.strong_induction_on with
  | _ num ih =>
    intro hpos
    rw [Fibonacci.pushDigits]
    by_cases hd : 0 < num / 10
    · simp only [hd, dif_pos]
      have hcons : Fibonacci.pushDigits (num / 10) =
          (num / 10 % 10 + 48) :: (if h : 0 < num / 10 / 10
            then Fibonacci.pushDigits (num / 10 / 10) else []) := by
        rw [Fibonacci.pushDigits]
      rw [hcons, List.getLast?_cons_cons, ← hcons]
      exact ih (num / 10) (Nat.div_lt_self hpos (by omega)) hd
    · have h0 : num / 10 = 0 := by omega
      have hlt : num < 10 := by omega
      have hmod : num % 10 = num := Nat.mod_eq_of_lt hlt
      simp [hd, hmod]
      omega

theorem fib_unsigned_mod : ∀ n, Fibonacci.fib n = Nat.fib n % 2 ^ 32 := by
  intro n
  induction n using Nat.strong_induction_on with
  | _ n ih =>
    rcases n with _ | (_ | m)
    · simp [fib_zero]
    · norm_num [fib_one]
    · show Fibonacci.fib (m + 2) = Nat.fib (m + 2) % 2 ^ 32
      rw [fib_add_two m, ih (m + 1) (by omega), ih m (by omega), ← Nat.add_mod,
        Nat.add_comm, ← Nat.fib_add_two]

/-! Claim theorems. -/

/-- C1: for every unsigned 32-bit integer `v`, `putNum v` writes to the UART
exactly the canonical decimal representation of `v`, most-significant digit
first with no leading zeros; in particular `putNum 0` writes exactly the
single byte 48 (the character zero), since the do-while loop runs at least
once. -/
theorem putNum_emits_canonical_decimal :
    (∀ v, v < 2 ^ 32 → Fibonacci.putNum v = canonicalDecimal v) ∧
    Fibonacci.putNum 0 = [48] ∧
    (∀ v, v < 2 ^ 32 → 0 < v → ¬ (Fibonacci.putNum v).head? = some 48) := by
  refine ⟨fun v _ => putNum_eq_canonical v, ?_, ?_⟩
  · rw [Fibonacci.putNum, pushDigits_zero]
    rfl
  · intro v _ hv
    rw [Fibonacci.putNum, List.head?_reverse]
    exact pushDigits_getLast?_ne v hv

theorem putNum_emits_canonical_decimal_witness :
    (5 : Nat) < 2 ^ 32 ∧ Fibonacci.putNum 5 = canonicalDecimal 5 :=
  ⟨by norm_num, putNum_emits_canonical_decimal.1 5 (by norm_num)⟩

/-- C2: for every null-terminated byte string with no embedded null, `put`
writes exactly the bytes preceding the terminator, in order, and nothing at
or beyond the terminator; `put` of the empty string writes zero bytes.
Both the fibonacci.c and the hello.c copies of `put` are covered. -/
theorem put_writes_message_bytes :
    (∀ m : List Nat, ¬ 0 ∈ m → Fibonacci.put (m ++ [0]) = m) ∧
    (∀ m : List Nat, ¬ 0 ∈ m → Hello.put (m ++ [0]) = m) ∧
    Fibonacci.put [0] = [] ∧ Hello.put [0] = [] := by
  refine ⟨fib_put_append_null, fun m h => ?_, rfl, rfl⟩
  rw [hello_put_eq]
  exact fib_put_append_null m h

theorem put_writes_message_bytes_witness :
    ¬ (0 : Nat) ∈ [72, 105] ∧ Fibonacci.put ([72, 105] ++ [0]) = [72, 105] :=
  ⟨by decide, put_writes_message_bytes.1 [72, 105] (by decide)⟩

/-- C3: `fib` satisfies the classic recurrence in fixed-width unsigned
arithmetic: `fib 0 = 0`, `fib 1 = 1`, and for `n ≥ 2` the value is the sum
of the two predecessors modulo `2 ^ 32`; consequently `fib 2 = 1` and
`fib 10 = 55`. -/
theorem fib_satisfies_recurrence :
    Fibonacci.fib 0 = 0 ∧ Fibonacci.fib 1 = 1 ∧
    (∀ n, 2 ≤ n → Fibonacci.fib n =
      (Fibonacci.fib (n - 1) + Fibonacci.fib (n - 2)) % 2 ^ 32) ∧
    Fibonacci.fib 2 = 1 ∧ Fibonacci.fib 10 = 55 := by
  refine ⟨fib_zero, fib_one, fun n h => fib_of_ge h, ?_, ?_⟩
  · have h : Fibonacci.fib 2 = (fibPair 2).1 := by rw [fibPair_eq]
    rw [h]
    rfl
  · have h : Fibonacci.fib 10 = (fibPair 10).1 := by rw [fibPair_eq]
    rw [h]
    rfl

theorem fib_satisfies_recurrence_witness :
    2 ≤ 2 ∧ Fibonacci.fib 2 = (Fibonacci.fib (2 - 1) + Fibonacci.fib (2 - 2)) % 2 ^ 32 :=
  ⟨by omega, fib_satisfies_recurrence.2.2.1 2 (by omega)⟩

/-- C4: the program body of the fibonacci variant emits to the UART exactly
the byte sequence of `"Fib(40) = 102334155\r\n"` and nothing else; in
particular `fib 40 = 102334155`. -/
theorem fib_main_output : Fibonacci.main = fibExpectedOut ∧ Fibonacci.fib 40 = 102334155 := by
  constructor
  · unfold Fibonacci.main
    rw [fib_40, putNum_eval]
    rfl
  · exact fib_40

/-- C5: the program body of the hello variant emits to the UART exactly the
13 bytes of `"Hello there\r\n"` in order, and nothing more. -/
theorem hello_main_output :
    Hello.main = helloExpectedOut ∧ helloExpectedOut.length = 13 :=
  ⟨rfl, rfl⟩

/-- C6: for every unsigned 32-bit input, the digit-accumulation loop of
`putNum` iterates at most 10 times (the buffer content `pushDigits num` has
length at most 10, and its length is the number of iterations), so every
buffer index written lies in `[0, 9]`; the replay loop reads exactly the
written slots, emitting the buffer reversed — the 10-element buffer never
overflows. -/
theorem putNum_buffer_within_bounds : ∀ num, num < 2 ^ 32 →
    (Fibonacci.pushDigits num).length ≤ 10 ∧
    (∀ j, j < (Fibonacci.pushDigits num).length → j ≤ 9) ∧
    Fibonacci.putNum num = (Fibonacci.pushDigits num).reverse := by
  intro num h
  have h10 : num < 10 ^ (9 + 1) := by
    have e1 : (2:Nat) ^ 32 = 4294967296 := by norm_num
    have e2 : (10:Nat) ^ (9 + 1) = 10000000000 := by norm_num
    omega
  have hlen := pushDigits_length_le 9 num h10
  exact ⟨hlen, fun j hj => by omega, rfl⟩

theorem putNum_buffer_within_bounds_witness :
    (4294967295 : Nat) < 2 ^ 32 ∧ (Fibonacci.pushDigits 4294967295).length ≤ 10 :=
  ⟨by norm_num, (putNum_buffer_within_bounds 4294967295 (by norm_num)).1⟩

/-- C7: for inputs whose mathematical Fibonacci value exceeds the unsigned
32-bit range, `fib` returns the value of the recurrence computed modulo
`2 ^ 32` — silent wraparound, no error (the function is total and
`Fibonacci.fib n = Nat.fib n % 2 ^ 32`). -/
theorem fib_overflow_wraps : ∀ n, 2 ^ 32 ≤ Nat.fib n →
    Fibonacci.fib n = Nat.fib n % 2 ^ 32 :=
  fun n _ => fib_unsigned_mod n

theorem fib_overflow_wraps_witness :
    2 ^ 32 ≤ Nat.fib 48 ∧ Fibonacci.fib 48 = Nat.fib 48 % 2 ^ 32 :=
  ⟨by decide, fib_overflow_wraps 48 (by decide)⟩

/-- C8: statelessness of `put`: `k` successive calls of `put` on the same
message, starting from any UART trace, append exactly `k` concatenated
copies of the same byte sequence; the bytes written by one call depend only
on its argument.  Both the fibonacci.c and the hello.c copies of `put` are
covered. -/
theorem put_repeated_calls_concatenate :
    (∀ (m : List Nat) (k : Nat) (t : List Nat),
      putCalls Fibonacci.put m k t = t ++ repeatOut (Fibonacci.put m) k) ∧
    (∀ (m : List Nat) (k : Nat) (t : List Nat),
      putCalls Hello.put m k t = t ++ repeatOut (Hello.put m) k) :=
  ⟨fun m => putCalls_eq Fibonacci.put m, fun m => putCalls_eq Hello.put m⟩

/-- C9: after `main` returns, each program is in a terminal state that is
never left and performs no further UART writes: the fibonacci variant parks
in the `_start_park` self-loop, the hello variant has jumped to address
zero and faulted.  Two steps from `Reset` reach exactly those states with
exactly `main`'s output on the UART. -/
theorem start_terminal_behavior :
    (∀ (k : Nat) (t : List Nat),
      fibMachineStep^[k] (ProgState.Parked, t) = (ProgState.Parked, t)) ∧
    (∀ (k : Nat) (t : List Nat),
      helloMachineStep^[k] (ProgState.Faulted, t) = (ProgState.Faulted, t)) ∧
    fibMachineStep^[2] (ProgState.Reset, []) = (ProgState.Parked, Fibonacci.main) ∧
    helloMachineStep^[2] (ProgState.Reset, []) = (ProgState.Faulted, Hello.main) :=
  ⟨fun k _ => Function.iterate_fixed rfl k,
   fun k _ => Function.iterate_fixed rfl k, rfl, rfl⟩

/-- C10: the recursive evaluation of `fib` terminates on every input: the
call tree described by `FibEval` (calls on `n - 1` and `n - 2`, reached
only when `n ≥ 2`) is well-founded, and the evaluation reaches the value
`Fibonacci.fib n`, so `fib` is a total function. -/
theorem fib_recursion_terminates : ∀ n, FibEval n (Fibonacci.fib n) := by
  intro n
  induction n using Nat.strong_induction_on with
  | _ n ih =>
    by_cases h : n ≤ 1
    · rw [fib_of_le h]
      exact FibEval.base n h
    · rw [fib_of_ge (by omega)]
      exact FibEval.step n _ _ (by omega) (ih (n - 1) (by omega)) (ih (n - 2) (by omega))

end Quartos
